import Mathlib

/-!
Verification development for the financial report generator
(`financial_report_generator.py`).

The Python source is shallowly embedded: strings are modelled as `List Char`
(ASCII; the inputs the program handles are ASCII), the regex-based parser is
translated pattern-by-pattern into deterministic scanning functions that are
observationally equivalent to Python `re` on the patterns used (each pattern's
backtracking is degenerate: every quantifier's character class is disjoint
from the character that must follow, so greedy/lazy scanning without
backtracking computes the same match), the append-only ledger file is a
`List Char` of file content, and the module-level `API_LIMIT_REACHED` flag is
threaded explicitly as a `Bool` state.
-/

namespace FRG

/-- ASCII whitespace, as matched by Python `\s` and `str.strip()`. -/
def pyIsSpace (c : Char) : Bool :=
  c = ' ' || c = '\t' || c = '\n' || c = '\r' || c = Char.ofNat 11 || c = Char.ofNat 12

/-- ASCII digit, as matched by Python `\d`. -/
def pyIsDigit (c : Char) : Bool := '0' ≤ c && c ≤ '9'

/-- Python `str.lower` on one ASCII character. -/
def lowerChar (c : Char) : Char :=
  if 'A' ≤ c && c ≤ 'Z' then Char.ofNat (c.toNat + 32) else c

/-- Python `str.upper` on one ASCII character. -/
def upperChar (c : Char) : Char :=
  if 'a' ≤ c && c ≤ 'z' then Char.ofNat (c.toNat - 32) else c

/-- Python `str.capitalize`: first character upper-cased, the rest lower-cased. -/
def pyCapitalize : List Char → List Char
  | [] => []
  | c :: r => upperChar c :: r.map lowerChar

/-- Python `\w` (ASCII): letter, digit or underscore. -/
def isWordChar (c : Char) : Bool :=
  ('a' ≤ c && c ≤ 'z') || ('A' ≤ c && c ≤ 'Z') || ('0' ≤ c && c ≤ '9') || c = '_'

/-- Python `str.strip()`: drop leading and trailing whitespace. -/
def pyStripL (l : List Char) : List Char :=
  ((l.dropWhile pyIsSpace).reverse.dropWhile pyIsSpace).reverse

/-- `leadEq p l`: `l` starts with `p` (character-exact). -/
def leadEq : List Char → List Char → Bool
  | [], _ => true
  | _ :: _, [] => false
  | a :: p, b :: l => a = b && leadEq p l

/-- Python substring containment `n in hay`. -/
def containsSub (n : List Char) : List Char → Bool
  | [] => n.isEmpty
  | c :: r => leadEq n (c :: r) || containsSub n r

/-- Match the literal `pat` (given lower-case) case-insensitively at the head
of `cs`; return the consumed original characters and the remainder. -/
def matchCI : List Char → List Char → Option (List Char × List Char)
  | [], cs => some ([], cs)
  | _ :: _, [] => none
  | p :: ps, c :: cs =>
    if lowerChar c = p then
      match matchCI ps cs with
      | some (t, r) => some (c :: t, r)
      | none => none
    else none

/- ### The free-text parser, `parse_ai_report` -/

/-- One section-header match of the `re.split` pattern
`\*\*\d*\.*\s*(Short-Term Opportunities|Long-Term Potential)` (IGNORECASE),
attempted at the head of the input.  Returns the captured group (original
spelling) and the remainder after the match. -/
def trySplitHeader : List Char → Option (List Char × List Char)
  | '*' :: '*' :: rest =>
    let r1 := rest.dropWhile pyIsDigit
    let r2 := r1.dropWhile (fun c => c = '.')
    let r3 := r2.dropWhile pyIsSpace
    match matchCI ("short-term opportunities".toList) r3 with
    | some (t, r) => some (t, r)
    | none => matchCI ("long-term potential".toList) r3
  | _ => none

/-- `re.split` with the section-header pattern: the flat result list
`[text, header, text, header, ..., text]`, scanning left to right for
non-overlapping leftmost matches.  `fuel` bounds the recursion; every step
consumes at least one character, so `fuel = input length + 1` is always
enough. -/
def splitSections (fuel : Nat) (acc : List Char) (cs : List Char) : List (List Char) :=
  match fuel with
  | 0 => [acc.reverse ++ cs]
  | fuel + 1 =>
    match trySplitHeader cs with
    | some (hdr, rest) => acc.reverse :: hdr :: splitSections fuel [] rest
    | none =>
      match cs with
      | [] => [acc.reverse]
      | c :: rest => splitSections fuel (c :: acc) rest

/-- `re.search(r'Overall Market Overview:\*\*(.*)', s, DOTALL|IGNORECASE)`:
find the leftmost occurrence of the literal label and return the capture
(everything after it, to the end of the input). -/
def searchOverviewTail : List Char → Option (List Char)
  | [] => none
  | c :: rest =>
    match matchCI ("overall market overview:**".toList) (c :: rest) with
    | some (_, r) => some r
    | none => searchOverviewTail rest

/-- One attempt of `Market Sentiment:\s*(\w+)` (IGNORECASE) at the head of the
input: the literal label, then whitespace, then a non-empty word-character
run.  Returns the captured token and the remainder after the whole match. -/
def trySentimentAt (cs : List Char) : Option (List Char × List Char) :=
  match matchCI ("market sentiment:".toList) cs with
  | none => none
  | some (_, r) =>
    let r2 := r.dropWhile pyIsSpace
    let tok := r2.takeWhile isWordChar
    if tok.isEmpty then none else some (tok, r2.drop tok.length)

/-- `re.search(r"Market Sentiment:\s*(\w+)", s, IGNORECASE)`: leftmost match's
captured token. -/
def searchSentiment : List Char → Option (List Char)
  | [] => none
  | c :: rest =>
    match trySentimentAt (c :: rest) with
    | some (tok, _) => some tok
    | none => searchSentiment rest

/-- `re.sub(r"Market Sentiment:\s*\w+", "", s, IGNORECASE)`: delete every
non-overlapping leftmost match, continuing after each match's end.  Each match
consumes at least one character, so `fuel = input length` is always enough. -/
def subSentiment : Nat → List Char → List Char
  | 0, cs => cs
  | _ + 1, [] => []
  | fuel + 1, c :: rest =>
    match trySentimentAt (c :: rest) with
    | some (_, after) => subSentiment fuel after
    | none => c :: subSentiment fuel rest

/-- The tail `(.*?)\):\*\*\s*(.*)` of the opportunity pattern, after the
opening parenthesis: the lazily-growing ticker group (`acc`, reversed; may not
contain a newline), then the literal `):**`, then whitespace, then the
justification group (rest of that line).  Returns (ticker, justification,
remainder after the match). -/
def matchG2 : Nat → List Char → List Char → Option (List Char × List Char × List Char)
  | _, acc, ')' :: ':' :: '*' :: '*' :: r =>
    let r2 := r.dropWhile pyIsSpace
    let just := r2.takeWhile (fun c => c ≠ '\n')
    some (acc.reverse, just, r2.drop just.length)
  | fuel + 1, acc, c :: r => if c = '\n' then none else matchG2 fuel (c :: acc) r
  | _, _, _ => none

/-- The tail `(.*?)\s*\((.*?)\):\*\*\s*(.*)` of the opportunity pattern, after
the opening `\*\*`: the lazily-growing company-name group (`acc`, reversed; no
newline), then whitespace and `(`, then `matchG2`.  Lazy semantics: at each
name length, first try to complete the match, then extend the name by one
character. -/
def matchG1 : Nat → List Char → List Char → Option ((List Char × List Char × List Char) × List Char)
  | fuel, acc, cs =>
    match (match cs.dropWhile pyIsSpace with
           | '(' :: r => matchG2 r.length [] r
           | _ => none) with
    | some (tick, just, rest) => some ((acc.reverse, tick, just), rest)
    | none =>
      match fuel, cs with
      | f + 1, c :: r => if c = '\n' then none else matchG1 f (c :: acc) r
      | _, _ => none

/-- One attempt of the opportunity pattern
`[\*\d]\.?\s*\*\*(.*?)\s*\((.*?)\):\*\*\s*(.*)` (after its leading bullet
character, already consumed by the caller): optional dot, whitespace, `**`,
then the three capture groups. -/
def tryOppTail (cs : List Char) : Option ((List Char × List Char × List Char) × List Char) :=
  let cs1 := match cs with | '.' :: r => r | _ => cs
  let cs2 := cs1.dropWhile pyIsSpace
  match cs2 with
  | '*' :: '*' :: r => matchG1 r.length [] r
  | _ => none

/-- One extracted opportunity record, as built by `parse_opportunities`. -/
structure Opportunity where
  name : String
  ticker : String
  justification : String
deriving DecidableEq, Repr

/-- `pattern.findall(text_block)` for the opportunity pattern, plus the
`.strip()` applied to each group: scan for non-overlapping leftmost matches,
continuing after each match's end. -/
def parse_opportunities_go : Nat → List Char → List Opportunity
  | 0, _ => []
  | _ + 1, [] => []
  | fuel + 1, c :: rest =>
    if c = '*' || pyIsDigit c then
      match tryOppTail rest with
      | some ((n, t, j), after) =>
        ⟨String.mk (pyStripL n), String.mk (pyStripL t), String.mk (pyStripL j)⟩ ::
          parse_opportunities_go fuel after
      | none => parse_opportunities_go fuel rest
    else parse_opportunities_go fuel rest

/-- `parse_opportunities` (the inner helper of `parse_ai_report`). -/
def parse_opportunities (cs : List Char) : List Opportunity :=
  parse_opportunities_go cs.length cs

/-- The `data` dictionary built by `parse_ai_report`. -/
structure ReportData where
  overview : String
  sentiment : String
  short_term : List Opportunity
  long_term : List Opportunity
deriving DecidableEq, Repr

/-- The initial `data` value of `parse_ai_report`. -/
def emptyReport : ReportData := ⟨"", "Neutral", [], []⟩

/-- One iteration body of the `while i < len(sections)` loop of
`parse_ai_report`: dispatch on the header's lower-cased text (`"short-term" in
header.lower()` / `"long-term" in header.lower()`) and store the section's
parsed opportunities. -/
def sectionStep (h c : List Char) (d : ReportData) : ReportData :=
  let hl := h.map lowerChar
  if containsSub ("short-term".toList) hl then { d with short_term := parse_opportunities c }
  else if containsSub ("long-term".toList) hl then { d with long_term := parse_opportunities c }
  else d

/-- The `while i < len(sections)` loop of `parse_ai_report`, starting from
`sections[1:]`.  A final unpaired header models the `IndexError` that
`sections[i+1]` would raise there; the error value carries the partially
updated `data`, as Python's mutated dictionary would. -/
def sectionLoop : List (List Char) → ReportData → Except ReportData ReportData
  | [], d => .ok d
  | [_], d => .error d
  | h :: c :: rest, d => sectionLoop rest (sectionStep h c d)

/-- The `if overview_match:` block of `parse_ai_report`: starting from the
initial `data`, extract the sentiment token and the label-stripped overview
prose from the text following the `Overall Market Overview:**` label of
`overview_section` (leaving `data` unchanged when the label is absent). -/
def overviewData (overview_section : List Char) : ReportData :=
  match searchOverviewTail overview_section with
  | none => emptyReport
  | some tl =>
    let overview_text := pyStripL tl
    let d :=
      match searchSentiment overview_text with
      | some tok => { emptyReport with sentiment := String.mk (pyCapitalize tok) }
      | none => emptyReport
    { d with overview := String.mk (pyStripL (subSentiment overview_text.length overview_text)) }

/-- The body of `parse_ai_report` up to (but not including) the
`except` handler: `Except.error` marks the exception paths the `try` guards
(the only fallible operation is the `sections[i+1]` indexing in the loop). -/
def parse_ai_reportE (report_text : String) : Except ReportData ReportData :=
  if report_text = "" then .ok emptyReport
  else
    let cs := report_text.toList
    let sections := splitSections (cs.length + 1) [] cs
    sectionLoop (sections.drop 1) (overviewData (sections.headD []))

/-- `parse_ai_report`: the body plus its `except` handler, which replaces
`overview` with the parse-failure marker and returns the (partially updated)
`data`. -/
def parse_ai_report (report_text : String) : ReportData :=
  match parse_ai_reportE report_text with
  | .ok d => d
  | .error d => { d with overview := "Could not parse the AI response. See console for raw output." }

/- ### The ledger, `load_processed_articles` / `save_processed_articles` -/

/-- The `(data, status)` pair returned by `get_stock_trend`.  Close prices are
kept as the raw response values (their numeric value plays no role in the
verified claims). -/
structure TrendResult where
  prices : Option (List String)
  status : String
deriving DecidableEq, Repr

/-- The shape of a parsed Alpha Vantage JSON response, as far as
`get_stock_trend` inspects it: presence of the `"Time Series (Daily)"` key
(with the listed `"4. close"` values, in dictionary order), the
`"Information"` value, and the `"Error Message"` value. -/
structure Payload where
  timeSeries : Option (List String) := none
  information : Option String := none
  errorMessage : Option String := none
deriving DecidableEq, Repr

/-- Outcome of the HTTP request inside `get_stock_trend`: a parsed payload, or
a raised transport/HTTP/JSON exception (`requests.get`, `raise_for_status`,
`r.json`). -/
inductive NetResult
  | payload (p : Payload)
  | raise
deriving DecidableEq, Repr

/-- The `not ticker or any(keyword in ticker.lower() for keyword in
['n/a', 'not provided', 'private'])` test: the ticker is falsy (absent or
empty) or its lower-cased text contains one of the sentinel keywords. -/
def isSentinelTicker : Option String → Bool
  | none => true
  | some s =>
    s = "" ||
      (["n/a", "not provided", "private"].any fun k =>
        containsSub k.toList (s.toList.map lowerChar))

/-- `get_stock_trend`, with the module-level `API_LIMIT_REACHED` flag threaded
explicitly.  `net` is the response the network would deliver if the request
were made.  Returns the `(data, status)` result, the flag after the call, and
whether a network request was performed. -/
def get_stock_trend (limit : Bool) (ticker : Option String) (net : NetResult) :
    TrendResult × Bool × Bool :=
  if limit then (⟨none, "Daily API Limit Reached"⟩, true, false)
  else if isSentinelTicker ticker then (⟨none, "Private Company / N/A"⟩, limit, false)
  else
    match net with
    | .raise => (⟨none, "Network Error"⟩, limit, true)
    | .payload p =>
      match p.timeSeries with
      | some days => (⟨some ((days.take 30).reverse), "Success"⟩, limit, true)
      | none =>
        match p.information with
        | some info =>
          if containsSub ("25 requests per day".toList) info.toList then
            (⟨none, "Daily API Limit Reached"⟩, true, true)
          else
            match p.errorMessage with
            | some _ => (⟨none, "Invalid Symbol"⟩, limit, true)
            | none => (⟨none, "API Error"⟩, limit, true)
        | none =>
          match p.errorMessage with
          | some _ => (⟨none, "Invalid Symbol"⟩, limit, true)
          | none => (⟨none, "API Error"⟩, limit, true)

/-- A run's sequence of `get_stock_trend` calls: thread the
`API_LIMIT_REACHED` flag through the given (ticker, would-be response) list
and record, per call, the result and whether a network request was made. -/
def runTrends (limit : Bool) : List (Option String × NetResult) → List (TrendResult × Bool) × Bool
  | [] => ([], limit)
  | (t, n) :: rest =>
    let r := get_stock_trend limit t n
    let rs := runTrends r.2.1 rest
    ((r.1, r.2.2) :: rs.1, rs.2)

/- ### Enrichment in `send_email_report` -/

/-- First-occurrence deduplication: the distinct values of a list, in first
appearance order.  (Python's `set` comprehension `{opp['ticker'] for opp in
all_opportunities}` produces exactly these values; its iteration order is
unspecified, and nothing verified below depends on the order.) -/
def dedupFirst : List String → List String
  | [] => []
  | x :: r => x :: dedupFirst (r.filter (fun y => y ≠ x))
termination_by l => l.length
decreasing_by
  simp only [List.length_cons]
  exact Nat.lt_succ_of_le (List.length_filter_le _ _)

/-- Result of the enrichment loop of `send_email_report`: the
`chart_data_cache` entries, the tickers for which `get_stock_trend` was
invoked (in order), and the final `API_LIMIT_REACHED` flag. -/
structure EnrichResult where
  cache : List (String × TrendResult)
  callsMade : List String
  limitFlag : Bool
deriving DecidableEq, Repr

/-- The `for i, ticker in enumerate(unique_tickers)` loop of
`send_email_report`: one `get_stock_trend` call per listed ticker, caching
each result.  (The fixed `time.sleep(15)` pacing between calls has no
observable effect in this model.) -/
def enrichLoop (limit : Bool) (net : String → NetResult) :
    List String → EnrichResult
  | [] => ⟨[], [], limit⟩
  | t :: rest =>
    let r := get_stock_trend limit (some t) (net t)
    let e := enrichLoop r.2.1 net rest
    ⟨(t, r.1) :: e.cache, t :: e.callsMade, e.limitFlag⟩

/-- The enrichment phase of `send_email_report`: deduplicate the tickers of
all opportunities (short-term then long-term), then run the lookup loop. -/
def sendEnrichment (rd : ReportData) (limit : Bool) (net : String → NetResult) : EnrichResult :=
  enrichLoop limit net (dedupFirst ((rd.short_term ++ rd.long_term).map (fun o => o.ticker)))

/-- The trend data used when rendering one opportunity card:
`chart_data_cache.get(opp['ticker'], (None, "N/A"))` in
`create_opportunities_html`. -/
def renderedTrend (cache : List (String × TrendResult)) (opp : Opportunity) : TrendResult :=
  (cache.lookup opp.ticker).getD ⟨none, "N/A"⟩

/- ### The delivery-and-record phase of `main` -/

/-- Observable events of the delivery phase. -/
inductive Event
  | emailSent
  | emailFailed
  | ledgerSaved (urls : List (List Char))
deriving DecidableEq, Repr

/-- The SMTP block of `send_email_report`: the send either succeeds or the
raised exception is caught by the surrounding `try/except`, which only logs;
the function returns normally in both cases. -/
def sendEmailEvents (smtpOk : Bool) : List Event :=
  if smtpOk then [.emailSent] else [.emailFailed]

/-- The tail of `main` after the model call: when `report_text` is truthy,
`parse_ai_report` / `send_email_report` run and then `save_processed_articles`
is called with the new articles' URLs; otherwise the email is skipped and
nothing is saved. -/
def mainDeliverPhase (report_text : Option String) (smtpOk : Bool)
    (newUrls : List (List Char)) : List Event :=
  match report_text with
  | some t => if t = "" then [] else sendEmailEvents smtpOk ++ [.ledgerSaved newUrls]
  | none => []

/- ### Concrete inputs used by witnesses and counterexamples -/

/-- A concrete two-call run for the claim-C4 witness: the first response is a
rate-limit notice, the second would be a successful time series. -/
def c4CallsW : List (Option String × NetResult) :=
  [(some "AAA", .payload ⟨none, some "limit is 25 requests per day for free keys", none⟩),
   (some "BBB", .payload ⟨some ["101.0"], none, none⟩)]

/-- A concrete report for the claim-C5 witness: two opportunities share the
ticker XYZ and one has ticker ABC, so exactly two lookups happen. -/
def rdW : ReportData :=
  ⟨"", "Neutral", [⟨"A Corp", "XYZ", "j1"⟩, ⟨"B Corp", "XYZ", "j2"⟩], [⟨"C Corp", "ABC", "j3"⟩]⟩

/-- The network oracle for the claim-C5 witness. -/
def netW : String → NetResult := fun _ => NetResult.raise

/-- The input of the claim-C8 counterexample: the sentiment token "mixed" is
not one of Bullish/Bearish/Neutral. -/
def c8Input : String := "**Overall Market Overview:** Market Sentiment: mixed\nCalm."

/-- The shape of every `re.split` result with one capture group: a text
piece, then alternating (header, text) pairs — always an odd number of
elements. -/
inductive SecShape : List (List Char) → Prop
  | single (t : List Char) : SecShape [t]
  | pair (t h : List Char) (rest : List (List Char)) : SecShape rest → SecShape (t :: h :: rest)

/-!
## Claim theorems
-/

set_option maxRecDepth 100000

/-- Claim C2: for every input string (including the empty string, non-matching
text, and truncated markdown), `parse_ai_report` returns a well-formed report
object containing an overview string, a sentiment string, and
short_term/long_term opportunity lists, and never raises an exception (the
embedded function is total, and its `Except`-modelled body is proved
error-free for claim C7). -/
theorem c2_parser_total (s : String) :
    ∃ o st sh lo, parse_ai_report s = ReportData.mk o st sh lo :=
  ⟨_, _, _, _, rfl⟩

/-- Claim C1 is false as stated: in a run whose SMTP send fails, the ledger is
still updated — `send_email_report` swallows the exception, so `main` goes on
to call `save_processed_articles` with the run's new URLs. -/
theorem c1_claim_false :
    Event.emailFailed ∈ mainDeliverPhase (some "report") false [['u']] ∧
    Event.ledgerSaved [['u']] ∈ mainDeliverPhase (some "report") false [['u']] := by
  decide

/-- Claim C1 (amended): for every run that reaches the delivery phase (the
model returned a truthy report text), `save_processed_articles` is invoked
with the run's new article URLs regardless of whether the SMTP send succeeds
or raises — the failure is caught and only logged inside
`send_email_report` — so articles of a failed delivery are silently skipped,
not reprocessed, on the next run. -/
theorem c1_ledger_saved_regardless (rt : String) (smtpOk : Bool)
    (urls : List (List Char)) (h : rt ≠ "") :
    Event.ledgerSaved urls ∈ mainDeliverPhase (some rt) smtpOk urls := by
  cases smtpOk <;> simp [mainDeliverPhase, sendEmailEvents, h]

/-- Witness for the amended claim C1 at a concrete input. -/
theorem c1_witness :
    Event.ledgerSaved [['u']] ∈ mainDeliverPhase (some "report") false [['u']] :=
  c1_ledger_saved_regardless "report" false [['u']] (by decide)

/-- Claim C6 is false as stated: once the run's `API_LIMIT_REACHED` flag is
set, `get_stock_trend` returns the rate-limited status even for an absent or
sentinel ticker — the flag check precedes the private/N-A check. -/
theorem c6_claim_false :
    isSentinelTicker (some "n/a") = true ∧
    get_stock_trend true (some "n/a") (.payload {}) =
      (⟨none, "Daily API Limit Reached"⟩, true, false) ∧
    "Daily API Limit Reached" ≠ "Private Company / N/A" := by
  decide

/-- Claim C6 (amended): while the run's rate-limit flag is not set, every
ticker argument that is absent (None or empty) or whose lowercased text
contains one of "n/a", "not provided", "private" yields the
`Private Company / N/A` status with no price series and no network call (once
the flag is set, the rate-limited status takes precedence). -/
theorem c6_sentinel_private (t : Option String) (net : NetResult)
    (h : isSentinelTicker t = true) :
    get_stock_trend false t net = (⟨none, "Private Company / N/A"⟩, false, false) := by
  simp [get_stock_trend, h]

/-- Witness for the amended claim C6 at a concrete input. -/
theorem c6_witness :
    isSentinelTicker (some "n/a") = true ∧
    get_stock_trend false (some "n/a") NetResult.raise =
      (⟨none, "Private Company / N/A"⟩, false, false) :=
  ⟨by decide, c6_sentinel_private (some "n/a") .raise (by decide)⟩

/-- Claim C10: with the rate-limit flag unset and a non-sentinel ticker,
`get_stock_trend` classifies a response payload as rate-limited exactly when
it carries no time series and its `Information` value contains the substring
"25 requests per day"; every other `Information`-carrying payload without a
time series and without an `Error Message` is classified as `API Error`. -/
theorem c10_rate_limit_classification (t : Option String) (p : Payload)
    (h : isSentinelTicker t = false) :
    (((get_stock_trend false t (.payload p)).1.status = "Daily API Limit Reached") ↔
      (p.timeSeries = none ∧ ∃ s, p.information = some s ∧
        containsSub ("25 requests per day".toList) s.toList = true)) ∧
    ((p.timeSeries = none ∧ p.errorMessage = none ∧
      (∀ s, p.information = some s →
        containsSub ("25 requests per day".toList) s.toList = false)) →
      (get_stock_trend false t (.payload p)).1.status = "API Error") := by
  obtain ⟨ts, info, em⟩ := p
  constructor
  · cases ts with
    | some days => simp [get_stock_trend, h]
    | none =>
      cases info with
      | none => cases em <;> simp [get_stock_trend, h]
      | some s => cases em <;> simp [get_stock_trend, h] <;> split <;> simp_all
  · rintro ⟨h1, h2, h3⟩
    subst h1
    simp at h2 h3
    subst h2
    cases info with
    | none => simp [get_stock_trend, h]
    | some s => simp [get_stock_trend, h, h3 s rfl]

/-- Any `get_stock_trend` call that reports the rate-limited status leaves the
`API_LIMIT_REACHED` flag set: the status arises either from the flag already
being set or from the branch that sets it. -/
theorem get_stock_trend_limit_of_status (l : Bool) (t : Option String) (n : NetResult)
    (hs : (get_stock_trend l t n).1.status = "Daily API Limit Reached") :
    (get_stock_trend l t n).2.1 = true := by
  cases l
  · cases hsent : isSentinelTicker t with
    | true => simp [get_stock_trend, hsent] at hs
    | false =>
      cases n with
      | raise => simp [get_stock_trend, hsent] at hs
      | payload p =>
        obtain ⟨ts, info, em⟩ := p
        cases ts with
        | some days => simp [get_stock_trend, hsent] at hs
        | none =>
          cases info with
          | none => cases em <;> simp [get_stock_trend, hsent] at hs
          | some s =>
            cases em <;> simp [get_stock_trend, hsent] at hs ⊢ <;>
              split at hs <;> simp_all
  · simp [get_stock_trend]

/-- Once the flag is set, every remaining call returns the rate-limited result
with no network request, and the flag stays set. -/
theorem runTrends_limit_all (calls : List (Option String × NetResult)) :
    runTrends true calls =
      (calls.map (fun _ => ((⟨none, "Daily API Limit Reached"⟩ : TrendResult), false)), true) := by
  induction calls with
  | nil => rfl
  | cons c rest ih =>
    obtain ⟨t, n⟩ := c
    simp [runTrends, get_stock_trend, ih]

/-- Elements of a constant-valued map, via `getD`. -/
theorem getD_map_const {α β : Type} (xs : List α) (v d : β) :
    ∀ j, j < xs.length → (xs.map (fun _ => v)).getD j d = v := by
  induction xs with
  | nil => intro j hj; simp at hj
  | cons x r ih =>
    intro j hj
    cases j with
    | zero => rfl
    | succ j => simpa using ih j (by simpa using Nat.lt_of_succ_lt_succ hj)

/-- Stickiness over a whole call sequence, for any starting flag value. -/
theorem runTrends_sticky (calls : List (Option String × NetResult)) :
    ∀ (l : Bool) (i j : Nat), i < j → j < calls.length →
      (((runTrends l calls).1).getD i (⟨none, ""⟩, false)).1.status = "Daily API Limit Reached" →
      ((runTrends l calls).1).getD j (⟨none, ""⟩, false) =
        (⟨none, "Daily API Limit Reached"⟩, false) := by
  induction calls with
  | nil => intro l i j _ hj _; simp at hj
  | cons c rest ih =>
    intro l i j hij hj hstat
    obtain ⟨t, n⟩ := c
    cases i with
    | zero =>
      have hflag : (get_stock_trend l t n).2.1 = true :=
        get_stock_trend_limit_of_status l t n (by simpa [runTrends] using hstat)
      cases j with
      | zero => exact absurd hij (lt_irrefl 0)
      | succ j =>
        have hjlen : j < rest.length := by simpa using Nat.lt_of_succ_lt_succ hj
        simp only [runTrends, hflag, List.getD_cons_succ]
        rw [runTrends_limit_all]
        exact getD_map_const rest _ _ j hjlen
    | succ i =>
      cases j with
      | zero => exact absurd hij (by omega)
      | succ j =>
        have hjlen : j < rest.length := by simpa using Nat.lt_of_succ_lt_succ hj
        simp only [runTrends, List.getD_cons_succ] at hstat ⊢
        exact ih _ i j (by omega) hjlen hstat

/-- Claim C4: within one run (the flag starts unset), once a call to
`get_stock_trend` has returned the rate-limited status, every subsequent call
of the run returns the rate-limited status without performing a network
request — for every sequence of tickers and network responses. -/
theorem c4_sticky_rate_limit (calls : List (Option String × NetResult)) (i j : Nat)
    (hij : i < j) (hj : j < calls.length)
    (hi : (((runTrends false calls).1).getD i (⟨none, ""⟩, false)).1.status =
      "Daily API Limit Reached") :
    ((runTrends false calls).1).getD j (⟨none, ""⟩, false) =
      (⟨none, "Daily API Limit Reached"⟩, false) :=
  runTrends_sticky calls false i j hij hj hi

/-- Witness for claim C4 at a concrete input: after the first call trips the
limit, the second call short-circuits with no network request. -/
theorem c4_witness :
    ((runTrends false c4CallsW).1).getD 1 (⟨none, ""⟩, false) =
      (⟨none, "Daily API Limit Reached"⟩, false) :=
  c4_sticky_rate_limit c4CallsW 0 1 (by decide) (by decide) (by decide)

/-- Membership is preserved by first-occurrence deduplication. -/
theorem dedupFirst_mem (a : String) : ∀ (l : List String), a ∈ dedupFirst l ↔ a ∈ l := by
  have key : ∀ (n : Nat) (l : List String), l.length ≤ n → (a ∈ dedupFirst l ↔ a ∈ l) := by
    intro n
    induction n with
    | zero =>
      intro l hl
      rw [Nat.le_zero, List.length_eq_zero] at hl
      subst hl; simp [dedupFirst]
    | succ n ih =>
      intro l hl
      cases l with
      | nil => simp [dedupFirst]
      | cons x r =>
        have hr : (r.filter (fun y => y ≠ x)).length ≤ n := by
          have := List.length_filter_le (fun y => decide (y ≠ x)) r
          simp at hl
          omega
        rw [dedupFirst, List.mem_cons, ih _ hr, List.mem_filter, List.mem_cons]
        by_cases hax : a = x <;> simp [hax]
  exact fun l => key l.length l le_rfl

/-- First-occurrence deduplication has no duplicates. -/
theorem dedupFirst_nodup : ∀ (l : List String), (dedupFirst l).Nodup := by
  have key : ∀ (n : Nat) (l : List String), l.length ≤ n → (dedupFirst l).Nodup := by
    intro n
    induction n with
    | zero =>
      intro l hl
      rw [Nat.le_zero, List.length_eq_zero] at hl
      subst hl; rw [dedupFirst]; exact List.nodup_nil
    | succ n ih =>
      intro l hl
      cases l with
      | nil => rw [dedupFirst]; exact List.nodup_nil
      | cons x r =>
        have hr : (r.filter (fun y => y ≠ x)).length ≤ n := by
          have := List.length_filter_le (fun y => decide (y ≠ x)) r
          simp at hl
          omega
        rw [dedupFirst, List.nodup_cons]
        refine ⟨fun hx => ?_, ih _ hr⟩
        rw [dedupFirst_mem, List.mem_filter] at hx
        simp at hx
  exact fun l => key l.length l le_rfl

/-- First-occurrence deduplication preserves the value set. -/
theorem dedupFirst_toFinset (l : List String) : (dedupFirst l).toFinset = l.toFinset := by
  ext a
  simp [List.mem_toFinset, dedupFirst_mem]

/-- The enrichment loop calls `get_stock_trend` exactly once per listed ticker. -/
theorem enrichLoop_calls (net : String → NetResult) :
    ∀ (ts : List String) (l : Bool), (enrichLoop l net ts).callsMade = ts := by
  intro ts
  induction ts with
  | nil => intro l; rfl
  | cons t rest ih => intro l; simp [enrichLoop, ih]

/-- The cache built by the enrichment loop has exactly the listed tickers as
keys, in order. -/
theorem enrichLoop_keys (net : String → NetResult) :
    ∀ (ts : List String) (l : Bool), (enrichLoop l net ts).cache.map Prod.fst = ts := by
  intro ts
  induction ts with
  | nil => intro l; rfl
  | cons t rest ih => intro l; simp [enrichLoop, ih]

/-- An association list resolves every key that occurs among its entries. -/
theorem lookup_eq_some_of_mem_keys :
    ∀ (l : List (String × TrendResult)) (a : String),
      a ∈ l.map Prod.fst → ∃ r, l.lookup a = some r := by
  intro l
  induction l with
  | nil => intro a ha; simp at ha
  | cons kv rest ih =>
    intro a ha
    obtain ⟨k, v⟩ := kv
    by_cases hak : a = k
    · exact ⟨v, by simp [List.lookup, hak]⟩
    · obtain ⟨r, hr⟩ := ih a (by simpa [hak] using ha)
      have hbeq : (a == k) = false := by simp [hak]
      exact ⟨r, by simp [List.lookup, hbeq, hr]⟩

/-- Claim C5: when the opportunities of a parsed report reference exactly `K`
distinct ticker strings, the enrichment loop of `send_email_report` calls
`get_stock_trend` exactly `K` times — once per distinct ticker value — and
every opportunity's rendering reuses the single cached `TrendResult` held for
its ticker. -/
theorem c5_dedup_enrichment (rd : ReportData) (limit : Bool) (net : String → NetResult)
    (K : Nat)
    (hK : K = ((rd.short_term ++ rd.long_term).map (fun o => o.ticker)).toFinset.card) :
    (sendEnrichment rd limit net).callsMade.length = K ∧
    (sendEnrichment rd limit net).callsMade.Nodup ∧
    (sendEnrichment rd limit net).callsMade.toFinset =
      ((rd.short_term ++ rd.long_term).map (fun o => o.ticker)).toFinset ∧
    ((sendEnrichment rd limit net).cache.map Prod.fst).Nodup ∧
    ∀ opp ∈ rd.short_term ++ rd.long_term,
      ∃ r, (sendEnrichment rd limit net).cache.lookup opp.ticker = some r ∧
        renderedTrend (sendEnrichment rd limit net).cache opp = r := by
  have hcalls : (sendEnrichment rd limit net).callsMade =
      dedupFirst ((rd.short_term ++ rd.long_term).map (fun o => o.ticker)) :=
    enrichLoop_calls net _ limit
  have hkeys : (sendEnrichment rd limit net).cache.map Prod.fst =
      dedupFirst ((rd.short_term ++ rd.long_term).map (fun o => o.ticker)) :=
    enrichLoop_keys net _ limit
  refine ⟨?_, ?_, ?_, ?_, ?_⟩
  · rw [hcalls, hK, ← dedupFirst_toFinset]
    exact (List.toFinset_card_of_nodup (dedupFirst_nodup _)).symm
  · rw [hcalls]; exact dedupFirst_nodup _
  · rw [hcalls]; exact dedupFirst_toFinset _
  · rw [hkeys]; exact dedupFirst_nodup _
  · intro opp hopp
    have hmem : opp.ticker ∈ (sendEnrichment rd limit net).cache.map Prod.fst := by
      rw [hkeys, dedupFirst_mem]
      exact List.mem_map_of_mem _ hopp
    obtain ⟨r, hr⟩ := lookup_eq_some_of_mem_keys _ _ hmem
    exact ⟨r, hr, by simp [renderedTrend, hr]⟩

/-- Witness for claim C5 at a concrete input. -/
theorem c5_witness :
    (sendEnrichment rdW false netW).callsMade.length = 2 ∧
    (sendEnrichment rdW false netW).callsMade.Nodup ∧
    (sendEnrichment rdW false netW).callsMade.toFinset =
      ((rdW.short_term ++ rdW.long_term).map (fun o => o.ticker)).toFinset ∧
    ((sendEnrichment rdW false netW).cache.map Prod.fst).Nodup ∧
    ∀ opp ∈ rdW.short_term ++ rdW.long_term,
      ∃ r, (sendEnrichment rdW false netW).cache.lookup opp.ticker = some r ∧
        renderedTrend (sendEnrichment rdW false netW).cache opp = r :=
  c5_dedup_enrichment rdW false netW 2 (by decide)

/-- Witness for claim C10 at a concrete input. -/
theorem c10_witness :
    (((get_stock_trend false (some "IBM") (.payload ⟨none, some "hello", none⟩)).1.status =
        "Daily API Limit Reached") ↔
      ((⟨none, some "hello", none⟩ : Payload).timeSeries = none ∧ ∃ s,
        (⟨none, some "hello", none⟩ : Payload).information = some s ∧
        containsSub ("25 requests per day".toList) s.toList = true)) ∧
    (((⟨none, some "hello", none⟩ : Payload).timeSeries = none ∧
      (⟨none, some "hello", none⟩ : Payload).errorMessage = none ∧
      (∀ s, (⟨none, some "hello", none⟩ : Payload).information = some s →
        containsSub ("25 requests per day".toList) s.toList = false)) →
      (get_stock_trend false (some "IBM") (.payload ⟨none, some "hello", none⟩)).1.status =
        "API Error") :=
  c10_rate_limit_classification (some "IBM") ⟨none, some "hello", none⟩ (by decide)

/-- Every `splitSections` result alternates text and header pieces. -/
theorem splitSections_shape (fuel : Nat) :
    ∀ (acc cs : List Char), SecShape (splitSections fuel acc cs) := by
  induction fuel with
  | zero => intro acc cs; exact SecShape.single _
  | succ fuel ih =>
    intro acc cs
    cases h : trySplitHeader cs with
    | some pr =>
      obtain ⟨hdr, rest⟩ := pr
      simp only [splitSections, h]
      exact SecShape.pair _ _ _ (ih [] rest)
    | none =>
      cases cs with
      | nil => simp only [splitSections, h]; exact SecShape.single _
      | cons c rest =>
        simp only [splitSections, h]
        exact ih (c :: acc) rest

/-- An alternating section list has odd length. -/
theorem SecShape.length_mod {l : List (List Char)} (h : SecShape l) : l.length % 2 = 1 := by
  induction h with
  | single t => rfl
  | pair t hd rest _ ih => simp only [List.length_cons]; omega

/-- The section loop, fed an even number of remaining pieces, never hits the
unpaired-header (`IndexError`) case. -/
theorem sectionLoop_ok_of_even :
    ∀ (l : List (List Char)) (d : ReportData), l.length % 2 = 0 →
      (sectionLoop l d).isOk = true
  | [], _, _ => rfl
  | [_], _, h => by simp at h
  | _ :: _ :: rest, d, h => by
    simp only [sectionLoop]
    refine sectionLoop_ok_of_even rest _ ?_
    simp only [List.length_cons] at h
    omega

/-- Claim C7: the exception branch of `parse_ai_report` is unreachable — for
every input text the `Except`-modelled body returns `ok`, so no input makes
parsing raise, and the claim (about inputs that do raise) holds vacuously.
The only guarded operation, the `sections[i+1]` indexing, is always in bounds
because `re.split` with one capture group returns an odd-length list. -/
theorem c7_parse_never_raises (s : String) : (parse_ai_reportE s).isOk = true := by
  unfold parse_ai_reportE
  by_cases hs : s = ""
  · rw [if_pos hs]; rfl
  · rw [if_neg hs]
    apply sectionLoop_ok_of_even
    have hodd := (splitSections_shape (s.toList.length + 1) [] s.toList).length_mod
    simp only [List.length_drop]
    omega

/-- A successful case-insensitive literal match decomposes its input: the
consumed prefix lower-cases to the pattern. -/
theorem matchCI_decomp :
    ∀ (pat cs t r : List Char), matchCI pat cs = some (t, r) →
      cs = t ++ r ∧ t.map lowerChar = pat := by
  intro pat
  induction pat with
  | nil =>
    intro cs t r h
    simp only [matchCI, Option.some_inj, Prod.mk.injEq] at h
    obtain ⟨h1, h2⟩ := h
    subst h1; subst h2
    exact ⟨rfl, rfl⟩
  | cons p ps ih =>
    intro cs t r h
    cases cs with
    | nil => exact absurd h (by simp [matchCI])
    | cons c cs2 =>
      rw [matchCI] at h
      by_cases hc : lowerChar c = p
      · rw [if_pos hc] at h
        cases hm : matchCI ps cs2 with
        | none => rw [hm] at h; exact absurd h (by simp)
        | some pr =>
          obtain ⟨t2, r2⟩ := pr
          rw [hm] at h
          simp only [Option.some_inj, Prod.mk.injEq] at h
          obtain ⟨ht, hr⟩ := h
          subst ht; subst hr
          obtain ⟨hcs, hmap⟩ := ih cs2 t2 r2 hm
          exact ⟨by simp [hcs], by simp [hmap, hc]⟩
      · rw [if_neg hc] at h
        exact absurd h (by simp)

/-- The overview search returns a suffix of its input (the capture of
`Overall Market Overview:\*\*(.*)` with DOTALL runs to the end). -/
theorem searchOverviewTail_suffix :
    ∀ (cs r : List Char), searchOverviewTail cs = some r → ∃ pre, cs = pre ++ r := by
  intro cs
  induction cs with
  | nil => intro r h; simp [searchOverviewTail] at h
  | cons c rest ih =>
    intro r h
    cases hm : matchCI ("overall market overview:**".toList) (c :: rest) with
    | some pr =>
      obtain ⟨t, r2⟩ := pr
      simp only [searchOverviewTail, hm, Option.some_inj] at h
      subst h
      exact ⟨t, (matchCI_decomp _ _ _ _ hm).1⟩
    | none =>
      simp only [searchOverviewTail, hm] at h
      obtain ⟨pre, hp⟩ := ih r h
      exact ⟨c :: pre, by simp [hp]⟩

/-- A successful sentiment-pattern match at the head of the input decomposes
it as label, whitespace, token, remainder. -/
theorem trySentimentAt_decomp (cs tok rest : List Char)
    (h : trySentimentAt cs = some (tok, rest)) :
    ∃ lbl sp, cs = lbl ++ sp ++ tok ++ rest ∧
      lbl.map lowerChar = ("market sentiment:".toList) ∧
      (∀ c ∈ sp, pyIsSpace c = true) ∧ tok ≠ [] ∧
      (∀ c ∈ tok, isWordChar c = true) := by
  unfold trySentimentAt at h
  cases hm : matchCI ("market sentiment:".toList) cs with
  | none => rw [hm] at h; exact absurd h (by simp)
  | some pr =>
    obtain ⟨t, r⟩ := pr
    rw [hm] at h
    dsimp only at h
    by_cases he : ((r.dropWhile pyIsSpace).takeWhile isWordChar).isEmpty = true
    · rw [if_pos he] at h
      exact absurd h (by simp)
    · rw [if_neg he] at h
      rw [Option.some_inj, Prod.mk.injEq] at h
      obtain ⟨htok, hrest⟩ := h
      obtain ⟨hcs, hlbl⟩ := matchCI_decomp _ _ _ _ hm
      obtain ⟨rem, hrem⟩ := List.takeWhile_prefix (l := r.dropWhile pyIsSpace) (p := isWordChar)
      rw [htok] at hrem
      have hrest2 : rest = rem := by
        have hd : (tok ++ rem).drop tok.length = rem := List.drop_left tok rem
        rw [hrem] at hd
        rw [← hrest, htok]
        exact hd
      refine ⟨t, r.takeWhile pyIsSpace, ?_, hlbl,
        fun c hc => List.mem_takeWhile_imp hc, ?_, ?_⟩
      · rw [hcs, hrest2]
        have hr : r = r.takeWhile pyIsSpace ++ (tok ++ rem) := by
          conv_lhs => rw [← List.takeWhile_append_dropWhile (p := pyIsSpace) (l := r)]
          rw [← hrem]
        conv_lhs => rw [hr]
        simp [List.append_assoc]
      · intro htoknil
        rw [← htok] at htoknil
        exact he (by rw [htoknil]; rfl)
      · intro c hc
        rw [← htok] at hc
        exact List.mem_takeWhile_imp hc

/-- Soundness of the sentiment search: a returned token genuinely follows an
occurrence of the literal label (case-insensitively) after whitespace. -/
theorem searchSentiment_decomp :
    ∀ (cs tok : List Char), searchSentiment cs = some tok →
      ∃ a lbl sp b, cs = a ++ lbl ++ sp ++ tok ++ b ∧
        lbl.map lowerChar = ("market sentiment:".toList) ∧
        (∀ c ∈ sp, pyIsSpace c = true) ∧ tok ≠ [] ∧
        (∀ c ∈ tok, isWordChar c = true) := by
  intro cs
  induction cs with
  | nil => intro tok h; simp [searchSentiment] at h
  | cons c rest ih =>
    intro tok h
    cases ht : trySentimentAt (c :: rest) with
    | some pr =>
      obtain ⟨tok2, rest2⟩ := pr
      simp only [searchSentiment, ht, Option.some_inj] at h
      subst h
      obtain ⟨lbl, sp, hdec, hlbl, hsp, hne, hword⟩ := trySentimentAt_decomp _ _ _ ht
      exact ⟨[], lbl, sp, rest2, by simpa using hdec, hlbl, hsp, hne, hword⟩
    | none =>
      simp only [searchSentiment, ht] at h
      obtain ⟨a, lbl, sp, b, hdec, hlbl, hsp, hne, hword⟩ := ih tok h
      exact ⟨c :: a, lbl, sp, b, by simp [hdec], hlbl, hsp, hne, hword⟩

/-- `str.strip()` returns a contiguous slice of its input. -/
theorem pyStripL_infix (l : List Char) : ∃ a b, l = a ++ pyStripL l ++ b := by
  refine ⟨l.takeWhile pyIsSpace,
    ((l.dropWhile pyIsSpace).reverse.takeWhile pyIsSpace).reverse, ?_⟩
  unfold pyStripL
  conv_lhs => rw [← List.takeWhile_append_dropWhile (p := pyIsSpace) (l := l)]
  rw [List.append_assoc]
  congr 1
  conv_lhs =>
    rw [← List.reverse_reverse (l.dropWhile pyIsSpace),
      ← List.takeWhile_append_dropWhile (p := pyIsSpace)
        (l := (l.dropWhile pyIsSpace).reverse)]
  rw [List.reverse_append]

/-- The first element of the `re.split` result is a prefix of the scanned
text. -/
theorem splitSections_head_lead (fuel : Nat) :
    ∀ (acc cs : List Char),
      ∃ r, acc.reverse ++ cs = (splitSections fuel acc cs).headD [] ++ r := by
  induction fuel with
  | zero => intro acc cs; exact ⟨[], by simp [splitSections]⟩
  | succ fuel ih =>
    intro acc cs
    cases h : trySplitHeader cs with
    | some pr =>
      obtain ⟨hdr, rest⟩ := pr
      exact ⟨cs, by simp [splitSections, h]⟩
    | none =>
      cases cs with
      | nil => exact ⟨[], by simp [splitSections, h]⟩
      | cons c rest =>
        obtain ⟨r, hr⟩ := ih (c :: acc) rest
        refine ⟨r, ?_⟩
        simp only [splitSections, h]
        rw [← hr]
        simp

/-- The dispatch step of the section loop never touches the sentiment field. -/
theorem sectionStep_sentiment (h c : List Char) (d : ReportData) :
    (sectionStep h c d).sentiment = d.sentiment := by
  unfold sectionStep
  dsimp only
  split
  · rfl
  · split <;> rfl

/-- The section loop preserves the sentiment field on its success path. -/
theorem sectionLoop_sentiment_ok :
    ∀ (l : List (List Char)) (d e : ReportData),
      sectionLoop l d = .ok e → e.sentiment = d.sentiment
  | [], d, e, h => by
    simp only [sectionLoop, Except.ok.injEq] at h
    rw [← h]
  | [_], _, _, h => by simp only [sectionLoop] at h; exact Except.noConfusion h
  | a :: b :: rest, d, e, h => by
    simp only [sectionLoop] at h
    rw [sectionLoop_sentiment_ok rest _ e h, sectionStep_sentiment]

/-- The section loop preserves the sentiment field on its error path. -/
theorem sectionLoop_sentiment_err :
    ∀ (l : List (List Char)) (d e : ReportData),
      sectionLoop l d = .error e → e.sentiment = d.sentiment
  | [], _, _, h => by simp only [sectionLoop] at h; exact Except.noConfusion h
  | [_], d, e, h => by
    simp only [sectionLoop, Except.error.injEq] at h
    rw [← h]
  | a :: b :: rest, d, e, h => by
    simp only [sectionLoop] at h
    rw [sectionLoop_sentiment_err rest _ e h, sectionStep_sentiment]

/-- The sentiment produced by the overview block: the default, or the
capitalized token found by the sentiment search in the stripped overview
capture. -/
theorem overviewData_sentiment (sec : List Char) :
    (overviewData sec).sentiment = "Neutral" ∨
    ∃ tl tok, searchOverviewTail sec = some tl ∧
      searchSentiment (pyStripL tl) = some tok ∧
      (overviewData sec).sentiment = String.mk (pyCapitalize tok) := by
  unfold overviewData
  cases h1 : searchOverviewTail sec with
  | none => left; rfl
  | some tl =>
    dsimp only
    cases h2 : searchSentiment (pyStripL tl) with
    | none => left; rfl
    | some tok => exact Or.inr ⟨tl, tok, rfl, h2, rfl⟩

/-- On nonempty input, the parser body is the section loop run on the split's
tail, seeded by the overview block of the split's first piece. -/
theorem parse_ai_reportE_eq (s : String) (hs : s ≠ "") :
    parse_ai_reportE s =
      sectionLoop ((splitSections (s.toList.length + 1) [] s.toList).drop 1)
        (overviewData ((splitSections (s.toList.length + 1) [] s.toList).headD [])) := by
  unfold parse_ai_reportE
  rw [if_neg hs]

/-- The dispatch step of the section loop never touches the overview field. -/
theorem sectionStep_overview (h c : List Char) (d : ReportData) :
    (sectionStep h c d).overview = d.overview := by
  unfold sectionStep
  dsimp only
  split
  · rfl
  · split <;> rfl

/-- The section loop preserves the overview field on its success path. -/
theorem sectionLoop_overview_ok :
    ∀ (l : List (List Char)) (d e : ReportData),
      sectionLoop l d = .ok e → e.overview = d.overview
  | [], d, e, h => by
    simp only [sectionLoop, Except.ok.injEq] at h
    rw [← h]
  | [_], _, _, h => by simp only [sectionLoop] at h; exact Except.noConfusion h
  | a :: b :: rest, d, e, h => by
    simp only [sectionLoop] at h
    rw [sectionLoop_overview_ok rest _ e h, sectionStep_overview]

/-- The overview produced by the overview block: the default empty string, or
the strip of the one-pass sentiment-pattern removal applied to the stripped
overview capture. -/
theorem overviewData_overview (sec : List Char) :
    (overviewData sec).overview = "" ∨
    ∃ tl, searchOverviewTail sec = some tl ∧
      (overviewData sec).overview =
        String.mk (pyStripL (subSentiment (pyStripL tl).length (pyStripL tl))) := by
  unfold overviewData
  cases h1 : searchOverviewTail sec with
  | none => left; rfl
  | some tl =>
    dsimp only
    right
    refine ⟨tl, rfl, ?_⟩
    cases h2 : searchSentiment (pyStripL tl) <;> rfl

/-- The one-pass `re.sub` removal decomposes its input into kept runs
alternating with removed matches: the input is the interleaving, the output
is the concatenation of the kept runs, and every removed segment is a
label-whitespace-token occurrence of the sentiment pattern. -/
theorem subSentiment_decomp :
    ∀ (fuel : Nat) (cs : List Char), cs.length ≤ fuel →
      ∃ (pieces : List (List Char × List Char)) (last : List Char),
        cs = (pieces.map (fun p => p.1 ++ p.2)).flatten ++ last ∧
        subSentiment fuel cs = (pieces.map Prod.fst).flatten ++ last ∧
        ∀ p ∈ pieces, ∃ lbl sp tok, p.2 = lbl ++ sp ++ tok ∧
          lbl.map lowerChar = ("market sentiment:".toList) ∧
          (∀ c ∈ sp, pyIsSpace c = true) ∧ tok ≠ [] ∧
          (∀ c ∈ tok, isWordChar c = true) := by
  intro fuel
  induction fuel with
  | zero =>
    intro cs hlen
    rw [Nat.le_zero, List.length_eq_zero] at hlen
    subst hlen
    exact ⟨[], [], rfl, rfl, by simp⟩
  | succ fuel ih =>
    intro cs hlen
    cases cs with
    | nil => exact ⟨[], [], rfl, rfl, by simp⟩
    | cons c rest =>
      cases ht : trySentimentAt (c :: rest) with
      | some pr =>
        obtain ⟨tok, after⟩ := pr
        obtain ⟨lbl, sp, hdec, hlbl, hsp, hne, hword⟩ := trySentimentAt_decomp _ _ _ ht
        have hlblne : lbl ≠ [] := by
          intro hl
          subst hl
          exact absurd hlbl (by decide)
        have hafter : after.length ≤ fuel := by
          have hc := congrArg List.length hdec
          simp only [List.length_cons, List.length_append] at hc
          have hpos : 0 < lbl.length := List.length_pos.mpr hlblne
          simp only [List.length_cons] at hlen
          omega
        obtain ⟨pieces, last, h1, h2, h3⟩ := ih after hafter
        refine ⟨([], lbl ++ sp ++ tok) :: pieces, last, ?_, ?_, ?_⟩
        · rw [hdec]
          conv_lhs => rw [h1]
          simp [List.flatten_cons, List.append_assoc]
        · rw [show subSentiment (fuel + 1) (c :: rest) = subSentiment fuel after from by
            simp [subSentiment, ht]]
          rw [h2]
          simp [List.flatten_cons]
        · intro p hp
          rcases List.mem_cons.mp hp with h | h
          · subst h
            exact ⟨lbl, sp, tok, rfl, hlbl, hsp, hne, hword⟩
          · exact h3 p h
      | none =>
        have hrest : rest.length ≤ fuel := by
          simp only [List.length_cons] at hlen
          omega
        obtain ⟨pieces, last, h1, h2, h3⟩ := ih rest hrest
        cases pieces with
        | nil =>
          refine ⟨[], c :: last, ?_, ?_, by simp⟩
          · simp only [List.map_nil, List.flatten_nil, List.nil_append] at h1 ⊢
            rw [h1]
          · rw [show subSentiment (fuel + 1) (c :: rest) = c :: subSentiment fuel rest from by
              simp [subSentiment, ht]]
            simp only [List.map_nil, List.flatten_nil, List.nil_append] at h2 ⊢
            rw [h2]
        | cons p ps =>
          obtain ⟨k, m⟩ := p
          refine ⟨(c :: k, m) :: ps, last, ?_, ?_, ?_⟩
          · conv_lhs => rw [h1]
            simp [List.flatten_cons, List.append_assoc]
          · rw [show subSentiment (fuel + 1) (c :: rest) = c :: subSentiment fuel rest from by
              simp [subSentiment, ht]]
            rw [h2]
            simp [List.flatten_cons]
          · intro q hq
            rcases List.mem_cons.mp hq with h | h
            · subst h
              exact h3 (k, m) (List.mem_cons_self _ _)
            · exact h3 q (List.mem_cons_of_mem _ h)

/-- Claim C8 is false as stated: the parser capitalizes whatever token follows
"Market Sentiment:" without any recognition check, so the unrecognized token
"mixed" yields sentiment "Mixed" rather than the claimed "Neutral". -/
theorem c8_claim_false :
    (parse_ai_report c8Input).sentiment = "Mixed" ∧
    "Mixed" ≠ "Bullish" ∧ "Mixed" ≠ "Bearish" ∧ "Mixed" ≠ "Neutral" := by
  decide

/-- Claim C8 (amended): for every input text, (1) the parsed sentiment is
either the default "Neutral" (in particular whenever no token follows the
literal label "Market Sentiment:" in the overview capture), or the
first-letter capitalization of a word token that literally follows an
occurrence of "Market Sentiment:" (case-insensitive, after optional
whitespace) in the input — whatever that token is, with no recognition
against Bullish/Bearish/Neutral; and (2) the returned overview prose is
either empty, or obtained from a contiguous slice of the input by deleting,
in one left-to-right pass, disjoint matched occurrences of the sentiment
label plus following whitespace and word token, and finally stripping
surrounding whitespace. -/
theorem c8_sentiment_overview_sound (s : String) :
    ((parse_ai_report s).sentiment = "Neutral" ∨
      ∃ pre lbl sp tok post,
        s.toList = pre ++ lbl ++ sp ++ tok ++ post ∧
        lbl.map lowerChar = ("market sentiment:".toList) ∧
        (∀ c ∈ sp, pyIsSpace c = true) ∧ tok ≠ [] ∧
        (∀ c ∈ tok, isWordChar c = true) ∧
        (parse_ai_report s).sentiment = String.mk (pyCapitalize tok)) ∧
    ((parse_ai_report s).overview = "" ∨
      ∃ (pieces : List (List Char × List Char)) (last : List Char),
        (∃ a b, s.toList =
          a ++ ((pieces.map (fun p => p.1 ++ p.2)).flatten ++ last) ++ b) ∧
        (∀ p ∈ pieces, ∃ lbl sp tok, p.2 = lbl ++ sp ++ tok ∧
          lbl.map lowerChar = ("market sentiment:".toList) ∧
          (∀ c ∈ sp, pyIsSpace c = true) ∧ tok ≠ [] ∧
          (∀ c ∈ tok, isWordChar c = true)) ∧
        (parse_ai_report s).overview =
          String.mk (pyStripL ((pieces.map Prod.fst).flatten ++ last))) := by
  by_cases hs : s = ""
  · constructor
    · left; rw [hs]; rfl
    · left; rw [hs]; rfl
  · have heven :
        ((splitSections (s.toList.length + 1) [] s.toList).drop 1).length % 2 = 0 := by
      have hodd := (splitSections_shape (s.toList.length + 1) [] s.toList).length_mod
      simp only [List.length_drop]
      omega
    obtain ⟨e, he⟩ : ∃ e,
        sectionLoop ((splitSections (s.toList.length + 1) [] s.toList).drop 1)
          (overviewData ((splitSections (s.toList.length + 1) [] s.toList).headD [])) =
          Except.ok e := by
      have hok := sectionLoop_ok_of_even
        ((splitSections (s.toList.length + 1) [] s.toList).drop 1)
        (overviewData ((splitSections (s.toList.length + 1) [] s.toList).headD [])) heven
      cases h : sectionLoop ((splitSections (s.toList.length + 1) [] s.toList).drop 1)
          (overviewData ((splitSections (s.toList.length + 1) [] s.toList).headD [])) with
      | ok e => exact ⟨e, rfl⟩
      | error e => rw [h] at hok; exact Bool.noConfusion hok
    have hpr : parse_ai_report s = e := by
      unfold parse_ai_report
      rw [parse_ai_reportE_eq s hs, he]
    have hsent : (parse_ai_report s).sentiment =
        (overviewData ((splitSections (s.toList.length + 1) [] s.toList).headD [])).sentiment := by
      rw [hpr]
      exact sectionLoop_sentiment_ok _ _ e he
    have hover : (parse_ai_report s).overview =
        (overviewData ((splitSections (s.toList.length + 1) [] s.toList).headD [])).overview := by
      rw [hpr]
      exact sectionLoop_overview_ok _ _ e he
    obtain ⟨r2, hr2⟩ := splitSections_head_lead (s.toList.length + 1) [] s.toList
    have hhead : s.toList =
        (splitSections (s.toList.length + 1) [] s.toList).headD [] ++ r2 := by
      simpa using hr2
    constructor
    · rcases overviewData_sentiment
          ((splitSections (s.toList.length + 1) [] s.toList).headD []) with
        hneut | ⟨tl, tok, h1, h2, h3⟩
      · left; rw [hsent, hneut]
      · right
        obtain ⟨a, lbl, sp, b, hdec, hlbl, hsp, hne, hword⟩ := searchSentiment_decomp _ _ h2
        obtain ⟨x, y, hxy⟩ := pyStripL_infix tl
        obtain ⟨pre0, hpre⟩ := searchOverviewTail_suffix _ _ h1
        refine ⟨pre0 ++ x ++ a, lbl, sp, tok, b ++ y ++ r2, ?_, hlbl, hsp, hne, hword, ?_⟩
        · rw [hhead, hpre, hxy, hdec]
          simp [List.append_assoc]
        · rw [hsent, h3]
    · rcases overviewData_overview
          ((splitSections (s.toList.length + 1) [] s.toList).headD []) with
        hempty | ⟨tl, h1, h2⟩
      · left; rw [hover, hempty]
      · right
        obtain ⟨pieces, last, hd1, hd2, hd3⟩ :=
          subSentiment_decomp (pyStripL tl).length (pyStripL tl) le_rfl
        obtain ⟨x, y, hxy⟩ := pyStripL_infix tl
        obtain ⟨pre0, hpre⟩ := searchOverviewTail_suffix _ _ h1
        refine ⟨pieces, last, ⟨pre0 ++ x, y ++ r2, ?_⟩, hd3, ?_⟩
        · rw [hhead, hpre, hxy, hd1]
          simp [List.append_assoc]
        · rw [hover, h2, hd2]

end FRG
